import Mathlib

/-!
Verification development for the DeskBot repository.

Shallow embedding of the coordination-layer logic of the DeskBot robot:
motor control (src/motor_control.py), the vision tracking loop body
(src/vision_tracker.py), voice command parsing (src/voice_commands.py),
the shared state bus (src/shared_state.py) and the music player's song
matching and volume logic (src/music_player.py).

Python strings are modelled as `List Char` (ASCII in practice); Python
floats arising from the scoring arithmetic are modelled as exact
rationals (ℚ); mutable image buffers are modelled as references into an
explicit heap so that `copy()` semantics (distinct instances) are
expressible.
-/

namespace DeskBot

/-! ## Motor control — src/motor_control.py -/

/-- `DEAD_ZONE = 50` — pixels from center where the motor won't move. -/
def DEAD_ZONE : Int := 50

/-- `MOTOR_SPEED = 1.0` — motor speed (0.0 to 1.0), modelled exactly. -/
def MOTOR_SPEED : ℚ := 1

/-- The module-level motor state of motor_control.py: the availability
flag `MOTOR_AVAILABLE` and the two motor handles `motor1` (horizontal)
and `motor2` (vertical); a handle, when present, carries its current
throttle. -/
structure MotorSystem where
  available : Bool
  motor1 : Option ℚ
  motor2 : Option ℚ
deriving DecidableEq

/-- `control_motors(offset_x, offset_y)`: returns immediately when
motors are unavailable; otherwise sets each present axis by the
dead-zone trichotomy of the source. -/
def control_motors (offset_x offset_y : Int) (s : MotorSystem) : MotorSystem :=
  if s.available = false then s
  else
    let m1 := match s.motor1 with
      | none => none
      | some _ => some (if offset_x > DEAD_ZONE then -MOTOR_SPEED
                        else if offset_x < -DEAD_ZONE then MOTOR_SPEED
                        else 0)
    let m2 := match s.motor2 with
      | none => none
      | some _ => some (if offset_y > DEAD_ZONE then MOTOR_SPEED
                        else if offset_y < -DEAD_ZONE then -MOTOR_SPEED
                        else 0)
    { s with motor1 := m1, motor2 := m2 }

/-- `stop_motors()`: when motors are available, sets each present axis
throttle to 0; otherwise does nothing. -/
def stop_motors (s : MotorSystem) : MotorSystem :=
  if s.available then
    { s with motor1 := s.motor1.map (fun _ => 0),
             motor2 := s.motor2.map (fun _ => 0) }
  else s

/-- C1: `control_motors` sets each axis independently by a three-way
trichotomy with an exclusive boundary at the dead zone 50: offsets with
`|dx| ≤ 50` and `|dy| ≤ 50` stop both axes; `dx > 50` drives the
horizontal axis at `-MOTOR_SPEED` (reverse); `dx < -50` drives it at
`+MOTOR_SPEED` (forward); the vertical axis is symmetric with its own
sign convention; in particular `dx = 50` yields stop. -/
theorem control_motors_trichotomy (s : MotorSystem) (dx dy : Int)
    (ha : s.available = true) (h1 : s.motor1.isSome = true)
    (h2 : s.motor2.isSome = true) :
    ((|dx| ≤ 50 ∧ |dy| ≤ 50) →
      (control_motors dx dy s).motor1 = some 0 ∧
      (control_motors dx dy s).motor2 = some 0)
    ∧ (dx > 50 → (control_motors dx dy s).motor1 = some (-MOTOR_SPEED))
    ∧ (dx < -50 → (control_motors dx dy s).motor1 = some MOTOR_SPEED)
    ∧ (dy > 50 → (control_motors dx dy s).motor2 = some MOTOR_SPEED)
    ∧ (dy < -50 → (control_motors dx dy s).motor2 = some (-MOTOR_SPEED))
    ∧ (dx = 50 → (control_motors dx dy s).motor1 = some 0) := by
  obtain ⟨t1, e1⟩ := Option.isSome_iff_exists.mp h1
  obtain ⟨t2, e2⟩ := Option.isSome_iff_exists.mp h2
  simp only [control_motors, ha, DEAD_ZONE, e1, e2, Bool.true_eq_false,
    if_false]
  refine ⟨?_, ?_, ?_, ?_, ?_, ?_⟩
  · rintro ⟨hx, hy⟩
    rw [abs_le] at hx hy
    constructor <;> · split_ifs <;> first | rfl | omega
  · intro h; split_ifs <;> first | rfl | omega
  · intro h; split_ifs <;> first | rfl | omega
  · intro h; split_ifs <;> first | rfl | omega
  · intro h; split_ifs <;> first | rfl | omega
  · intro h; subst h; split_ifs <;> first | rfl | omega

/-- Witness for C1 at a concrete motor system and concrete offsets. -/
theorem control_motors_trichotomy_witness :
    ((|(30 : Int)| ≤ 50 ∧ |(-50 : Int)| ≤ 50) →
      (control_motors 30 (-50) ⟨true, some 0, some 0⟩).motor1 = some 0 ∧
      (control_motors 30 (-50) ⟨true, some 0, some 0⟩).motor2 = some 0)
    ∧ (control_motors 30 (-50) ⟨true, some 0, some 0⟩).motor1 = some 0 := by
  have h := control_motors_trichotomy ⟨true, some 0, some 0⟩ 30 (-50)
    rfl rfl rfl
  exact ⟨h.1, (h.1 ⟨by decide, by decide⟩).1⟩

/-- C8: when the actuator hardware failed to initialize (availability
flag false) both `control_motors` and `stop_motors` are no-ops that
change no state; `stop_motors` is idempotent, and calling it when the
motors are already stopped changes nothing (both axes stay at stop). -/
theorem motors_unavailable_noop_and_stop_idempotent (s : MotorSystem)
    (dx dy : Int) :
    (s.available = false → control_motors dx dy s = s ∧ stop_motors s = s)
    ∧ stop_motors (stop_motors s) = stop_motors s
    ∧ (s.motor1 = some 0 → s.motor2 = some 0 → stop_motors s = s)
    ∧ (s.available = true →
        (stop_motors s).motor1 = s.motor1.map (fun _ => 0) ∧
        (stop_motors s).motor2 = s.motor2.map (fun _ => 0)) := by
  obtain ⟨av, m1, m2⟩ := s
  refine ⟨fun hna => ⟨?_, ?_⟩, ?_, fun e1 e2 => ?_, fun ha => ?_⟩
  · simp only at hna; simp [control_motors, hna]
  · simp only at hna; simp [stop_motors, hna]
  · cases av <;> cases m1 <;> cases m2 <;> simp [stop_motors]
  · simp only at e1 e2
    subst e1; subst e2
    cases av <;> simp [stop_motors]
  · simp only at ha; simp [stop_motors, ha]

/-- Witness for C8 at concrete motor systems. -/
theorem motors_unavailable_noop_witness :
    (control_motors 200 (-300) ⟨false, some 1, some 1⟩ = ⟨false, some 1, some 1⟩
      ∧ stop_motors ⟨false, some 1, some 1⟩ = ⟨false, some 1, some 1⟩)
    ∧ stop_motors ⟨true, some 0, some 0⟩ = ⟨true, some 0, some 0⟩ := by
  refine ⟨(motors_unavailable_noop_and_stop_idempotent ⟨false, some 1, some 1⟩ 200 (-300)).1 rfl, ?_⟩
  exact (motors_unavailable_noop_and_stop_idempotent ⟨true, some 0, some 0⟩ 0 0).2.2.1 rfl rfl

/-! ## Vision tracking loop body — src/vision_tracker.py -/

/-- A face bounding box `(x, y, w, h)` as returned by
`detectMultiScale`, origin top-left, pixel coordinates. -/
structure Box where
  x : Nat
  y : Nat
  w : Nat
  h : Nat
deriving DecidableEq

/-- The key of `max(faces, key=lambda f: f[2] * f[3])`. -/
def area (b : Box) : Nat := b.w * b.h

/-- One comparison step of Python's `max`: the running best is replaced
only when the new candidate's key is strictly greater, so ties keep the
earlier element. -/
def pickLarger (best g : Box) : Box := if area g > area best then g else best

/-- `max(faces, key=lambda f: f[2] * f[3])` when `len(faces) > 0`,
`none` otherwise. -/
def selectLargest : List Box → Option Box
  | [] => none
  | f :: rest => some (rest.foldl pickLarger f)

/-- Face-center offset from the frame center, with Python's integer
floor division `//`: `(x + w // 2 - frame_width // 2,
y + h // 2 - frame_height // 2)`. -/
def boxOffset (b : Box) (frameW frameH : Nat) : Int × Int :=
  (((b.x + b.w / 2 : Nat) : Int) - ((frameW / 2 : Nat) : Int),
   ((b.y + b.h / 2 : Nat) : Int) - ((frameH / 2 : Nat) : Int))

/-- Observable result of one iteration of `run_vision_tracker`'s loop
after a successful capture: the annotated (selected) box, the computed
offset, and the motor state after actuation. -/
structure VisionStep where
  selected : Option Box
  offset : Option (Int × Int)
  motors : MotorSystem

/-- The face-handling portion of one `run_vision_tracker` loop
iteration: if any face was detected, the largest is selected and its
offset computed; motors are driven by `control_motors` only when
tracking is enabled, else `stop_motors`; with no face, `stop_motors`. -/
def vision_iteration (faces : List Box) (trackingEnabled : Bool)
    (frameW frameH : Nat) (m : MotorSystem) : VisionStep :=
  match selectLargest faces with
  | some b =>
    let off := boxOffset b frameW frameH
    if trackingEnabled then
      { selected := some b, offset := some off,
        motors := control_motors off.1 off.2 m }
    else
      { selected := some b, offset := some off, motors := stop_motors m }
  | none => { selected := none, offset := none, motors := stop_motors m }

theorem foldl_pickLarger_ge (rest : List Box) :
    ∀ f : Box, ∀ g ∈ f :: rest, area g ≤ area (rest.foldl pickLarger f) := by
  induction rest with
  | nil => intro f g hg; simp at hg; subst hg; exact le_refl _
  | cons g' t ih =>
    intro f g hg
    have hstep : area f ≤ area (pickLarger f g') ∧
        area g' ≤ area (pickLarger f g') := by
      unfold pickLarger; split_ifs with h <;> omega
    simp only [List.foldl_cons]
    rw [List.mem_cons, List.mem_cons] at hg
    rcases hg with hg | hg | hg
    · subst hg; exact le_trans hstep.1 (ih _ _ (List.mem_cons_self _ _))
    · subst hg; exact le_trans hstep.2 (ih _ _ (List.mem_cons_self _ _))
    · exact ih (pickLarger f g') g (List.mem_cons_of_mem _ hg)

theorem foldl_pickLarger_first (rest : List Box) :
    ∀ f : Box, ∃ l1 l2, f :: rest = l1 ++ (rest.foldl pickLarger f) :: l2
      ∧ ∀ g ∈ l1, area g < area (rest.foldl pickLarger f) := by
  induction rest with
  | nil => intro f; exact ⟨[], [], rfl, by simp⟩
  | cons g t ih =>
    intro f
    simp only [List.foldl_cons]
    obtain ⟨l1, l2, hsplit, hlt⟩ := ih (pickLarger f g)
    by_cases h : area g > area f
    · have hf : pickLarger f g = g := by unfold pickLarger; rw [if_pos h]
      rw [hf] at hsplit hlt ⊢
      refine ⟨f :: l1, l2, by rw [List.cons_append, ← hsplit], ?_⟩
      intro x hx
      rcases List.mem_cons.mp hx with hx | hx
      · subst hx
        calc area x < area g := h
          _ ≤ area (t.foldl pickLarger g) :=
            foldl_pickLarger_ge t g g (List.mem_cons_self _ _)
      · exact hlt x hx
    · have hf : pickLarger f g = f := by unfold pickLarger; rw [if_neg h]
      rw [hf] at hsplit hlt ⊢
      cases l1 with
      | nil =>
        simp only [List.nil_append] at hsplit
        have hr : t.foldl pickLarger f = f := (List.cons.injEq _ _ _ _).mp hsplit |>.1.symm
        exact ⟨[], g :: t, by rw [hr]; rfl, by simp⟩
      | cons x l1t =>
        have hx : x = f ∧ f :: t = (x :: l1t) ++ (t.foldl pickLarger f) :: l2 := by
          constructor
          · exact ((List.cons.injEq _ _ _ _).mp hsplit).1.symm
          · exact hsplit
        have ht : t = l1t ++ (t.foldl pickLarger f) :: l2 :=
          ((List.cons.injEq _ _ _ _).mp hsplit).2
        have hfl : area f < area (t.foldl pickLarger f) := by
          have := hlt x (List.mem_cons_self _ _)
          rw [hx.1] at this; exact this
        refine ⟨f :: g :: l1t, l2, ?_, ?_⟩
        · simp only [List.cons_append]; rw [← ht]
        · intro y hy
          rcases List.mem_cons.mp hy with hy | hy
          · subst hy; exact hfl
          rcases List.mem_cons.mp hy with hy | hy
          · subst hy; exact lt_of_le_of_lt (Nat.not_lt.mp h) hfl
          · exact hlt y (List.mem_cons_of_mem _ hy)

/-- C9: for every non-empty detection list the vision loop selects a
box of maximal area `w*h`, and the first such box in iteration order
(every earlier box has strictly smaller area); the offset is the
selected box's center minus the frame center. -/
theorem vision_selects_largest_first (faces : List Box) (hne : faces ≠ [])
    (tracking : Bool) (frameW frameH : Nat) (m : MotorSystem) :
    ∃ b l1 l2, selectLargest faces = some b
      ∧ faces = l1 ++ b :: l2
      ∧ (∀ g ∈ faces, area g ≤ area b)
      ∧ (∀ g ∈ l1, area g < area b)
      ∧ (vision_iteration faces tracking frameW frameH m).offset =
          some (((b.x + b.w / 2 : Nat) : Int) - ((frameW / 2 : Nat) : Int),
                ((b.y + b.h / 2 : Nat) : Int) - ((frameH / 2 : Nat) : Int)) := by
  cases faces with
  | nil => exact absurd rfl hne
  | cons f rest =>
    obtain ⟨l1, l2, hsplit, hlt⟩ := foldl_pickLarger_first rest f
    refine ⟨rest.foldl pickLarger f, l1, l2, rfl, hsplit, ?_, hlt, ?_⟩
    · exact fun g hg => foldl_pickLarger_ge rest f g hg
    · cases tracking <;> simp [vision_iteration, selectLargest, boxOffset]

/-- Witness for C9 at a concrete two-face list (second face larger). -/
theorem vision_selects_largest_first_witness :
    ∃ b l1 l2,
      selectLargest [⟨0, 0, 10, 10⟩, ⟨100, 50, 20, 20⟩] = some b
      ∧ [Box.mk 0 0 10 10, Box.mk 100 50 20 20] = l1 ++ b :: l2
      ∧ (∀ g ∈ [Box.mk 0 0 10 10, Box.mk 100 50 20 20], area g ≤ area b)
      ∧ (∀ g ∈ l1, area g < area b)
      ∧ (vision_iteration [⟨0, 0, 10, 10⟩, ⟨100, 50, 20, 20⟩] true 640 480
          ⟨true, some 0, some 0⟩).offset =
          some (((b.x + b.w / 2 : Nat) : Int) - ((640 / 2 : Nat) : Int),
                ((b.y + b.h / 2 : Nat) : Int) - ((480 / 2 : Nat) : Int)) :=
  vision_selects_largest_first [⟨0, 0, 10, 10⟩, ⟨100, 50, 20, 20⟩]
    (by decide) true 640 480 ⟨true, some 0, some 0⟩

/-- C2: in any vision-loop iteration with zero detected faces,
`stop_motors` is applied regardless of prior actuator state; in any
iteration with a face detected but tracking disabled, `stop_motors` is
applied instead of `control_motors`, while selection and offset
computation still happen. -/
theorem vision_stop_on_no_face_or_disabled (faces : List Box)
    (tracking : Bool) (frameW frameH : Nat) (m : MotorSystem) :
    (faces = [] →
      (vision_iteration faces tracking frameW frameH m).motors = stop_motors m)
    ∧ (faces ≠ [] → tracking = false →
      (vision_iteration faces tracking frameW frameH m).motors = stop_motors m
      ∧ (vision_iteration faces tracking frameW frameH m).offset.isSome = true
      ∧ (vision_iteration faces tracking frameW frameH m).selected.isSome = true) := by
  constructor
  · intro h; subst h; simp [vision_iteration, selectLargest]
  · intro hne htr
    subst htr
    cases faces with
    | nil => exact absurd rfl hne
    | cons f rest => simp [vision_iteration, selectLargest]

/-- Witness for C2 at concrete inputs: no face, and one face with
tracking disabled. -/
theorem vision_stop_on_no_face_or_disabled_witness :
    (vision_iteration [] true 640 480 ⟨true, some 1, some 1⟩).motors =
      stop_motors ⟨true, some 1, some 1⟩
    ∧ ((vision_iteration [⟨10, 10, 30, 30⟩] false 640 480
          ⟨true, some 1, some 1⟩).motors = stop_motors ⟨true, some 1, some 1⟩
        ∧ (vision_iteration [⟨10, 10, 30, 30⟩] false 640 480
            ⟨true, some 1, some 1⟩).offset.isSome = true
        ∧ (vision_iteration [⟨10, 10, 30, 30⟩] false 640 480
            ⟨true, some 1, some 1⟩).selected.isSome = true) :=
  ⟨(vision_stop_on_no_face_or_disabled [] true 640 480
      ⟨true, some 1, some 1⟩).1 rfl,
   (vision_stop_on_no_face_or_disabled [⟨10, 10, 30, 30⟩] false 640 480
      ⟨true, some 1, some 1⟩).2 (by decide) rfl⟩

/-! ## Voice command parsing — src/voice_commands.py -/

/-- The command dicts produced by `parse_command`, as a tagged variant:
`{'type': ..., 'action': ..., ['query': ...]}`. -/
inductive Command where
  | greeting
  | musicPlay (query : Option (List Char))
  | musicPause
  | musicStop
  | volumeUp
  | volumeDown
  | trackingOn
  | trackingOff
deriving DecidableEq

/-- Python `str.lower()` restricted to ASCII input (all command phrases
are ASCII): lower-case each character. -/
def pyLower (l : List Char) : List Char := l.map Char.toLower

/-- The characters stripped by Python `str.strip()` with no argument:
ASCII whitespace. -/
def isPySpace (c : Char) : Bool :=
  c = ' ' || c = '\t' || c = '\n' || c = '\r' || c = '\x0b' || c = '\x0c'

/-- Python `str.strip()`: remove leading and trailing whitespace. -/
def pyStrip (l : List Char) : List Char :=
  ((l.dropWhile isPySpace).reverse.dropWhile isPySpace).reverse

/-- Python `t.startswith(p)` (also the semantics of an anchored
`re.match` against an alternation of plain literal phrases). -/
def pyStartsWith (t p : List Char) : Bool :=
  match p, t with
  | [], _ => true
  | _ :: _, [] => false
  | c :: cs, d :: ds => c = d && pyStartsWith ds cs

/-- The literal characters of `"don't track"` (apostrophe spelled via
its code point). -/
def dontTrackChars : List Char := "don".data ++ Char.ofNat 39 :: "t track".data

/-- `parse_command(text)` from src/voice_commands.py: lower-case and
strip, then match greeting literals, a `play` command by text prefix
with the stripped remainder as optional query, pause/stop literals, and
the anchored volume/tracking phrase alternations; anything else is no
command. -/
def parse_command (text : List Char) : Option Command :=
  let t := pyStrip (pyLower text)
  if t = [] then none
  else if t = "hello".data ∨ t = "hi".data ∨ t = "hey".data
          ∨ t = "hello debo".data then
    some .greeting
  else if pyStartsWith t "play".data then
    let query := pyStrip (t.drop 4)
    some (.musicPlay (if query = [] then none else some query))
  else if t = "pause".data ∨ t = "pause music".data ∨ t = "pause it".data then
    some .musicPause
  else if t = "stop".data ∨ t = "stop music".data ∨ t = "stop it".data
          ∨ t = "stop playing".data then
    some .musicStop
  else if pyStartsWith t "volume up".data ∨ pyStartsWith t "louder".data
          ∨ pyStartsWith t "turn it up".data
          ∨ pyStartsWith t "increase volume".data then
    some .volumeUp
  else if pyStartsWith t "volume down".data ∨ pyStartsWith t "quieter".data
          ∨ pyStartsWith t "turn it down".data
          ∨ pyStartsWith t "decrease volume".data then
    some .volumeDown
  else if pyStartsWith t "tracking on".data
          ∨ pyStartsWith t "enable tracking".data
          ∨ pyStartsWith t "start tracking".data
          ∨ pyStartsWith t "track me".data then
    some .trackingOn
  else if pyStartsWith t "tracking off".data
          ∨ pyStartsWith t "disable tracking".data
          ∨ pyStartsWith t "stop tracking".data
          ∨ pyStartsWith t dontTrackChars then
    some .trackingOff
  else none

theorem pyStartsWith_iff (p : List Char) :
    ∀ t : List Char, pyStartsWith t p = true ↔ ∃ r, t = p ++ r := by
  induction p with
  | nil =>
    intro t
    simp [pyStartsWith]
  | cons c cs ih =>
    intro t
    cases t with
    | nil =>
      simp only [pyStartsWith, List.cons_append]
      constructor
      · intro h; exact absurd h (by simp)
      · rintro ⟨r, hr⟩; exact absurd hr (by simp)
    | cons d ds =>
      simp only [pyStartsWith, Bool.and_eq_true, decide_eq_true_eq, ih ds,
        List.cons_append, List.cons.injEq]
      constructor
      · rintro ⟨hcd, r, hr⟩; exact ⟨r, hcd.symm, hr⟩
      · rintro ⟨r, hdc, hr⟩; exact ⟨hdc.symm, r, hr⟩

/-- C3: `parse_command` lower-cases and trims its input; on the
normalized text, `"PLAY some jazz"` yields Music/play with query
`"some jazz"`, `"play"` yields Music/play with no query, `""` yields no
command, `"hello"` yields Greeting, and in general any text whose
normalization begins with `"play"` yields Music/play with the stripped
remainder as the query, absent when that remainder is empty. -/
theorem parse_command_spec :
    parse_command "PLAY some jazz".data
        = some (.musicPlay (some "some jazz".data))
    ∧ parse_command "play".data = some (.musicPlay none)
    ∧ parse_command "".data = none
    ∧ parse_command "hello".data = some .greeting
    ∧ ∀ text : List Char,
        pyStartsWith (pyStrip (pyLower text)) "play".data = true →
        parse_command text =
          some (.musicPlay
            (if pyStrip ((pyStrip (pyLower text)).drop 4) = [] then none
             else some (pyStrip ((pyStrip (pyLower text)).drop 4)))) := by
  refine ⟨by decide, by decide, by decide, by decide, ?_⟩
  intro text hplay
  obtain ⟨r, hr⟩ := (pyStartsWith_iff "play".data (pyStrip (pyLower text))).mp hplay
  unfold parse_command
  rw [hr]
  rw [if_neg (by simp), if_neg (by rintro (h | h | h | h) <;> simp_all),
    if_pos (by rw [← hr]; exact hplay)]

/-- Witness for C3's general clause at the concrete input
`" Play HELLO jazz "`. -/
theorem parse_command_spec_witness :
    parse_command " Play HELLO jazz ".data =
      some (.musicPlay
        (if pyStrip ((pyStrip (pyLower " Play HELLO jazz ".data)).drop 4) = []
         then none
         else some (pyStrip ((pyStrip (pyLower " Play HELLO jazz ".data)).drop 4)))) :=
  parse_command_spec.2.2.2.2 " Play HELLO jazz ".data (by decide)

/-! ## Shared state bus — src/shared_state.py

Frames are numpy arrays, i.e. mutable buffers handled by reference;
`frame.copy()` allocates a fresh buffer with the same contents. We model
this with an explicit heap of buffers addressed by `Nat` references, so
that "a distinct copy" is expressible. The lock only serializes access
(modelled by the operations being atomic state transformers). -/

/-- The contents of a frame buffer (an opaque byte buffer). -/
abbrev FrameData := List Nat

/-- A heap of frame buffers: an allocation counter and the contents at
each reference. -/
structure Heap where
  next : Nat
  mem : Nat → FrameData

/-- Allocate a fresh buffer holding `d` (the model of `.copy()`). -/
def Heap.alloc (h : Heap) (d : FrameData) : Nat × Heap :=
  (h.next, ⟨h.next + 1, fun r => if r = h.next then d else h.mem r⟩)

/-- Mutate the buffer at reference `r` in place. -/
def Heap.write (h : Heap) (r : Nat) (d : FrameData) : Heap :=
  ⟨h.next, fun x => if x = r then d else h.mem x⟩

/-- The `SharedState` object: latest-frame reference, FIFO command
queue, and the two flags. -/
structure SharedState where
  heap : Heap
  frame : Option Nat
  commandQueue : List Command
  running : Bool
  trackingEnabled : Bool

/-- `SharedState.__init__`: no frame, empty queue, running and tracking
enabled. -/
def initSharedState : SharedState :=
  { heap := ⟨0, fun _ => []⟩, frame := none, commandQueue := [],
    running := true, trackingEnabled := true }

/-- `set_frame(frame)`: store `frame.copy()` (a fresh buffer with the
same contents), or `None` when the argument is `None`. -/
def set_frame (s : SharedState) (f : Option Nat) : SharedState :=
  match f with
  | none => { s with frame := none }
  | some r =>
    let a := s.heap.alloc (s.heap.mem r)
    { s with heap := a.2, frame := some a.1 }

/-- `get_frame()`: return `self._frame.copy()` (a fresh buffer with the
same contents) or `None` when no frame is stored. -/
def get_frame (s : SharedState) : Option Nat × SharedState :=
  match s.frame with
  | none => (none, s)
  | some r =>
    let a := s.heap.alloc (s.heap.mem r)
    (some a.1, { s with heap := a.2 })

/-- `put_command(command)`: enqueue at the tail. -/
def put_command (s : SharedState) (c : Command) : SharedState :=
  { s with commandQueue := s.commandQueue ++ [c] }

/-- `get_command(timeout)`: dequeue from the head, or `None` when the
queue stays empty until the timeout. -/
def get_command (s : SharedState) : Option Command × SharedState :=
  match s.commandQueue with
  | [] => (none, s)
  | c :: rest => (some c, { s with commandQueue := rest })

/-- C5: the command queue is FIFO — pushing `[a, b, c]` with
`put_command` and popping three times with `get_command` yields
`a, b, c` in that order. -/
theorem command_queue_fifo (a b c : Command) :
    (get_command (put_command (put_command (put_command initSharedState a) b) c)).1
        = some a
    ∧ (get_command (get_command (put_command (put_command (put_command
        initSharedState a) b) c)).2).1 = some b
    ∧ (get_command (get_command (get_command (put_command (put_command
        (put_command initSharedState a) b) c)).2).2).1 = some c := by
  refine ⟨rfl, rfl, rfl⟩

/-- Mutation, by the caller, of a buffer it holds a reference to
(e.g. `numpy` in-place writes on the array returned by `get_frame`);
only the heap changes, the bus's own fields are untouched. -/
def mutateBuffer (s : SharedState) (r : Nat) (d : FrameData) : SharedState :=
  { s with heap := s.heap.write r d }

/-- C6: the frame round-trip — after `set_frame` of a buffer holding
data `D`, `get_frame` returns a reference whose contents equal `D` but
which is distinct from both the stored buffer and the caller's original
buffer, so writing through the returned reference does not change what
a later `get_frame` returns; and on the initial state (no frame ever
published) `get_frame` returns `none`. -/
theorem frame_roundtrip_defensive_copy :
    (∀ (s : SharedState) (r : Nat), r < s.heap.next →
      ∃ rc,
        (get_frame (set_frame s (some r))).1 = some rc
        ∧ (get_frame (set_frame s (some r))).2.heap.mem rc = s.heap.mem r
        ∧ (set_frame s (some r)).frame ≠ some rc
        ∧ rc ≠ r
        ∧ (∀ d : FrameData,
            ∃ rc2,
              (get_frame (mutateBuffer (get_frame (set_frame s (some r))).2 rc d)).1
                  = some rc2
              ∧ (get_frame (mutateBuffer (get_frame (set_frame s (some r))).2 rc d)).2.heap.mem rc2
                  = s.heap.mem r))
    ∧ (get_frame initSharedState).1 = none := by
  constructor
  · intro s r hr
    refine ⟨s.heap.next + 1, rfl, ?_, ?_, ?_, ?_⟩
    · simp [get_frame, set_frame, Heap.alloc]
    · simp [get_frame, set_frame, Heap.alloc]
    · omega
    · intro d
      refine ⟨s.heap.next + 2, rfl, ?_⟩
      simp [get_frame, set_frame, mutateBuffer, Heap.alloc, Heap.write]
  · rfl

/-- Witness for C6's round-trip clause at a concrete shared state
holding one allocated buffer `[7]` at reference 0. -/
theorem frame_roundtrip_defensive_copy_witness :
    ∃ rc,
      (get_frame (set_frame ⟨⟨1, fun _ => [7]⟩, none, [], true, true⟩ (some 0))).1
          = some rc
      ∧ (get_frame (set_frame ⟨⟨1, fun _ => [7]⟩, none, [], true, true⟩
            (some 0))).2.heap.mem rc
          = (⟨⟨1, fun _ => [7]⟩, none, [], true, true⟩ : SharedState).heap.mem 0
      ∧ (set_frame ⟨⟨1, fun _ => [7]⟩, none, [], true, true⟩ (some 0)).frame
          ≠ some rc
      ∧ rc ≠ 0
      ∧ (∀ d : FrameData,
          ∃ rc2,
            (get_frame (mutateBuffer
              (get_frame (set_frame ⟨⟨1, fun _ => [7]⟩, none, [], true, true⟩
                (some 0))).2 rc d)).1 = some rc2
            ∧ (get_frame (mutateBuffer
                (get_frame (set_frame ⟨⟨1, fun _ => [7]⟩, none, [], true, true⟩
                  (some 0))).2 rc d)).2.heap.mem rc2
                = (⟨⟨1, fun _ => [7]⟩, none, [], true, true⟩ : SharedState).heap.mem 0) :=
  frame_roundtrip_defensive_copy.1 ⟨⟨1, fun _ => [7]⟩, none, [], true, true⟩ 0
    (by decide)

/-! ## Playback volume — src/music_player.py (MusicPlayerThread) -/

/-- The volume-relevant part of `MusicPlayerThread`: whether
`self.player` was successfully created, and `self.current_volume`
(default 70). -/
structure PlayerState where
  playerAvailable : Bool
  current_volume : Int
deriving DecidableEq

/-- `volume_up()` as invoked from `_process_command` (default step 10):
`min(100, v + 10)`, a no-op when the player is unavailable. -/
def volume_up (s : PlayerState) : PlayerState :=
  if s.playerAvailable then
    { s with current_volume := min 100 (s.current_volume + 10) }
  else s

/-- `volume_down()` as invoked from `_process_command` (default step
10): `max(0, v - 10)`, a no-op when the player is unavailable. -/
def volume_down (s : PlayerState) : PlayerState :=
  if s.playerAvailable then
    { s with current_volume := max 0 (s.current_volume - 10) }
  else s

/-- A finite sequence of volume operations. -/
inductive VolOp where
  | up
  | down
deriving DecidableEq

/-- Apply a sequence of volume commands in order. -/
def applyVolOps (ops : List VolOp) (s : PlayerState) : PlayerState :=
  ops.foldl (fun st op => match op with
    | .up => volume_up st
    | .down => volume_down st) s

theorem volume_inv_preserved (ops : List VolOp) :
    ∀ s : PlayerState, 0 ≤ s.current_volume → s.current_volume ≤ 100 →
      0 ≤ (applyVolOps ops s).current_volume ∧
      (applyVolOps ops s).current_volume ≤ 100 := by
  induction ops with
  | nil => intro s h0 h1; exact ⟨h0, h1⟩
  | cons op t ih =>
    intro s h0 h1
    simp only [applyVolOps, List.foldl_cons] at ih ⊢
    cases op
    · refine ih (volume_up s) ?_ ?_ <;>
        · unfold volume_up; split_ifs <;> (try simp) <;> omega
    · refine ih (volume_down s) ?_ ?_ <;>
        · unfold volume_down; split_ifs <;> (try simp) <;> omega

/-- C7: starting from the default volume 70, after every finite
sequence of `volume_up` / `volume_down` operations the current volume
stays within `[0, 100]`; each `volume_up` yields `min(100, v + 10)` and
each `volume_down` yields `max(0, v - 10)`. -/
theorem volume_invariant (ops : List VolOp) (avail : Bool) :
    (0 ≤ (applyVolOps ops ⟨avail, 70⟩).current_volume
      ∧ (applyVolOps ops ⟨avail, 70⟩).current_volume ≤ 100)
    ∧ (∀ t : PlayerState, t.playerAvailable = true →
        (volume_up t).current_volume = min 100 (t.current_volume + 10)
        ∧ (volume_down t).current_volume = max 0 (t.current_volume - 10)) := by
  refine ⟨volume_inv_preserved ops ⟨avail, 70⟩ (by norm_num) (by norm_num), ?_⟩
  intro t ht
  constructor <;> simp [volume_up, volume_down, ht]

/-- Witness for C7's step clauses at a concrete available player. -/
theorem volume_invariant_witness :
    (0 ≤ (applyVolOps [.up, .up, .up, .up, .down] ⟨true, 70⟩).current_volume
      ∧ (applyVolOps [.up, .up, .up, .up, .down] ⟨true, 70⟩).current_volume ≤ 100)
    ∧ ((volume_up ⟨true, 95⟩).current_volume = min 100 (95 + 10)
        ∧ (volume_down ⟨true, 95⟩).current_volume = max 0 (95 - 10)) :=
  ⟨(volume_invariant [.up, .up, .up, .up, .down] true).1,
   (volume_invariant [] true).2 ⟨true, 95⟩ rfl⟩

/-! ## Song matching — src/music_player.py (find_best_match)

Scores are Python floats computed as quotients of small integers; they
are modelled exactly in ℚ. `difflib.SequenceMatcher(None, a, b).ratio()`
is modelled by its documented algorithm (for inputs short enough that
the autojunk heuristic is inactive): `2 * M / (len(a) + len(b))` where
`M` is the total size of the matching blocks found by recursively
taking the longest matching contiguous block (earliest in `a`, then in
`b`) and recursing on the pieces to its left and right; when both
strings are empty the result is 1. -/

/-- One `{'name': ..., 'filename': ..., 'path': ...}` entry of the song
index built by `index_music_folder`. -/
structure Song where
  name : List Char
  filename : List Char
  path : List Char
deriving DecidableEq

/-- Python `q in l` on strings: `q` occurs as a contiguous substring of
`l`. -/
def isSubstring (q l : List Char) : Bool :=
  (List.range (l.length + 1)).any (fun i => pyStartsWith (l.drop i) q)

/-- Length of the common prefix run of two strings. -/
def runLen : List Char → List Char → Nat
  | c :: cs, d :: ds => if c = d then runLen cs ds + 1 else 0
  | _, _ => 0

/-- The longest matching contiguous block `(i, j, k)` of two strings
(`a[i:i+k] == b[j:j+k]`, `k` maximal, ties resolved to the earliest `i`
then the earliest `j`), as found by `SequenceMatcher.find_longest_match`
without junk. -/
def longestMatch (a b : List Char) : Nat × Nat × Nat :=
  (List.range a.length).foldl (fun best i =>
    (List.range b.length).foldl (fun best j =>
      if runLen (a.drop i) (b.drop j) > best.2.2
      then (i, j, runLen (a.drop i) (b.drop j)) else best) best) (0, 0, 0)

theorem foldl_preserve {α β : Type} (P : β → Prop) (f : β → α → β)
    (l : List α) (init : β) (h0 : P init)
    (hstep : ∀ b a, a ∈ l → P b → P (f b a)) : P (l.foldl f init) := by
  induction l generalizing init with
  | nil => exact h0
  | cons x t ih =>
    exact ih (f init x) (hstep init x (List.mem_cons_self x t) h0)
      (fun b a ha hb => hstep b a (List.mem_cons_of_mem _ ha) hb)

theorem runLen_le_left : ∀ a b : List Char, runLen a b ≤ a.length := by
  intro a
  induction a with
  | nil => intro b; cases b <;> simp [runLen]
  | cons c cs ih =>
    intro b
    cases b with
    | nil => simp [runLen]
    | cons d ds =>
      simp only [runLen, List.length_cons]
      split_ifs
      · have := ih ds; omega
      · omega

theorem runLen_le_right : ∀ a b : List Char, runLen a b ≤ b.length := by
  intro a
  induction a with
  | nil => intro b; cases b <;> simp [runLen]
  | cons c cs ih =>
    intro b
    cases b with
    | nil => simp [runLen]
    | cons d ds =>
      simp only [runLen, List.length_cons]
      split_ifs
      · have := ih ds; omega
      · omega

theorem longestMatch_bounds (a b : List Char) :
    (longestMatch a b).1 + (longestMatch a b).2.2 ≤ a.length
    ∧ (longestMatch a b).2.1 + (longestMatch a b).2.2 ≤ b.length := by
  unfold longestMatch
  apply foldl_preserve
    (fun t : Nat × Nat × Nat => t.1 + t.2.2 ≤ a.length ∧ t.2.1 + t.2.2 ≤ b.length)
  · simp
  · intro best i hi hbest
    apply foldl_preserve
      (fun t : Nat × Nat × Nat => t.1 + t.2.2 ≤ a.length ∧ t.2.1 + t.2.2 ≤ b.length)
    · exact hbest
    · intro best' j hj hbest'
      split_ifs with hk
      · have hi' : i < a.length := List.mem_range.mp hi
        have hj' : j < b.length := List.mem_range.mp hj
        have h1 := runLen_le_left (a.drop i) (b.drop j)
        have h2 := runLen_le_right (a.drop i) (b.drop j)
        rw [List.length_drop] at h1
        rw [List.length_drop] at h2
        exact ⟨by simp; omega, by simp; omega⟩
      · exact hbest'

/-- Total size of the matching blocks of `SequenceMatcher`: the longest
block plus, recursively, the matches to its left and right. The first
argument is recursion fuel: every recursive call strictly decreases the
length of the first string (the block is non-empty), so fuel
`a.length` is always sufficient, and when fuel runs out the first
string is empty and the longest block is empty anyway, so both sides
agree on 0. -/
def matchesCountAux : Nat → List Char → List Char → Nat
  | 0, _, _ => 0
  | fuel + 1, a, b =>
    if (longestMatch a b).2.2 = 0 then 0
    else
      matchesCountAux fuel (a.take (longestMatch a b).1)
        (b.take (longestMatch a b).2.1)
      + (longestMatch a b).2.2
      + matchesCountAux fuel (a.drop ((longestMatch a b).1 + (longestMatch a b).2.2))
          (b.drop ((longestMatch a b).2.1 + (longestMatch a b).2.2))

/-- Total size of the `SequenceMatcher` matching blocks of two
strings. -/
def matchesCount (a b : List Char) : Nat := matchesCountAux a.length a b

/-- `SequenceMatcher(None, a, b).ratio()`: `2 * M / (len(a) + len(b))`,
and 1 when both strings are empty. -/
def fuzzyScore (a b : List Char) : ℚ :=
  if a.length + b.length = 0 then 1
  else 2 * (matchesCount a b : ℚ) / ((a.length + b.length : Nat) : ℚ)

theorem matchesCountAux_le (fuel : Nat) :
    ∀ a b : List Char,
      matchesCountAux fuel a b ≤ a.length
      ∧ matchesCountAux fuel a b ≤ b.length := by
  induction fuel with
  | zero => intro a b; simp [matchesCountAux]
  | succ n ih =>
    intro a b
    rw [matchesCountAux]
    split_ifs with hk
    · simp
    · obtain ⟨hab, hbb⟩ := longestMatch_bounds a b
      have h1 := ih (a.take (longestMatch a b).1) (b.take (longestMatch a b).2.1)
      have h2 := ih (a.drop ((longestMatch a b).1 + (longestMatch a b).2.2))
        (b.drop ((longestMatch a b).2.1 + (longestMatch a b).2.2))
      rw [List.length_take, List.length_take] at h1
      rw [List.length_drop, List.length_drop] at h2
      constructor <;> omega

theorem matchesCount_le (a b : List Char) :
    matchesCount a b ≤ a.length ∧ matchesCount a b ≤ b.length :=
  matchesCountAux_le a.length a b

theorem fuzzyScore_le_one (a b : List Char) : fuzzyScore a b ≤ 1 := by
  unfold fuzzyScore
  split_ifs with h
  · exact le_refl 1
  · have hpos : (0 : ℚ) < ((a.length + b.length : Nat) : ℚ) :=
      Nat.cast_pos.mpr (Nat.pos_of_ne_zero h)
    rw [div_le_one hpos]
    have hM := matchesCount_le a b
    have : 2 * matchesCount a b ≤ a.length + b.length := by omega
    exact_mod_cast this

/-- The per-song score of the `find_best_match` loop: substring matches
score `len(query) / len(name) + 0.5`, others the fuzzy similarity. -/
def song_score (queryLower : List Char) (song : Song) : ℚ :=
  if isSubstring queryLower (pyLower song.name) then
    (queryLower.length : ℚ) / (((pyLower song.name).length : Nat) : ℚ) + 1/2
  else fuzzyScore queryLower (pyLower song.name)

/-- One iteration of the `find_best_match` loop: replace the running
best exactly when the new score is strictly greater. -/
def bestStep (queryLower : List Char) (best : Option Song × ℚ) (song : Song) :
    Option Song × ℚ :=
  if song_score queryLower song > best.2 then (some song, song_score queryLower song)
  else best

/-- `find_best_match(query, music_files)` from src/music_player.py. -/
def find_best_match (query : List Char) (files : List Song) : Option Song :=
  match files with
  | [] => none
  | first :: _ =>
    if query = [] then some first
    else
      if (files.foldl (bestStep (pyLower query)) (none, 0)).2 > 3/10 then
        (files.foldl (bestStep (pyLower query)) (none, 0)).1
      else none

theorem pyStartsWith_refl : ∀ q : List Char, pyStartsWith q q = true := by
  intro q
  induction q with
  | nil => rfl
  | cons c cs ih => simp [pyStartsWith, ih]

theorem isSubstring_self (q : List Char) : isSubstring q q = true := by
  unfold isSubstring
  rw [List.any_eq_true]
  exact ⟨0, List.mem_range.mpr (Nat.succ_pos _), by
    rw [List.drop_zero]; exact pyStartsWith_refl q⟩

theorem isSubstring_length {q l : List Char} (h : isSubstring q l = true) :
    q.length ≤ l.length := by
  unfold isSubstring at h
  rw [List.any_eq_true] at h
  obtain ⟨i, _, hpre⟩ := h
  obtain ⟨r, hr⟩ := (pyStartsWith_iff q (l.drop i)).mp hpre
  have := congrArg List.length hr
  rw [List.length_drop, List.length_append] at this
  omega

theorem foldl_bestStep_mono (ql : List Char) (l : List Song) :
    ∀ best : Option Song × ℚ, best.2 ≤ (l.foldl (bestStep ql) best).2 := by
  induction l with
  | nil => intro best; exact le_refl _
  | cons x t ih =>
    intro best
    refine le_trans ?_ (ih (bestStep ql best x))
    unfold bestStep
    split_ifs with h
    · exact le_of_lt h
    · exact le_refl _

theorem foldl_bestStep_ge (ql : List Char) (l : List Song) :
    ∀ (best : Option Song × ℚ) (s : Song), s ∈ l →
      song_score ql s ≤ (l.foldl (bestStep ql) best).2 := by
  induction l with
  | nil => intro best s hs; exact absurd hs (List.not_mem_nil s)
  | cons x t ih =>
    intro best s hs
    rw [List.mem_cons] at hs
    rcases hs with hs | hs
    · subst hs
      refine le_trans ?_ (foldl_bestStep_mono ql t (bestStep ql best s))
      unfold bestStep
      split_ifs with h
      · exact le_refl _
      · exact le_of_not_lt h
    · exact ih (bestStep ql best x) s hs

theorem foldl_bestStep_isSome (ql : List Char) (l : List Song) :
    ((l.foldl (bestStep ql) (none, 0)).2 > 0 →
      (l.foldl (bestStep ql) (none, 0)).1.isSome = true) := by
  apply foldl_preserve
    (fun best : Option Song × ℚ => best.2 > 0 → best.1.isSome = true)
  · intro h; exact absurd h (lt_irrefl 0)
  · intro best s _ hbest
    unfold bestStep
    split_ifs with h
    · intro _; rfl
    · exact hbest

/-- C4: in `find_best_match`, a non-empty query exactly equal
(case-insensitively) to some song's name always outscores any candidate
matched only by fuzzy edit-similarity (the exact match scores
`1 + 0.5 = 1.5` while a fuzzy-only similarity is at most 1); and a
non-empty query whose score against every song does not exceed the
acceptance threshold `0.3` yields no match. -/
theorem find_best_match_exact_and_threshold (query : List Char)
    (files : List Song) :
    (∀ s t : Song, query ≠ [] →
        pyLower s.name = pyLower query →
        isSubstring (pyLower query) (pyLower t.name) = false →
        song_score (pyLower query) t < song_score (pyLower query) s)
    ∧ (query ≠ [] →
        (∀ s ∈ files, song_score (pyLower query) s ≤ 3/10) →
        find_best_match query files = none) := by
  constructor
  · intro s t hq hs hfuzzy
    have hql : pyLower query ≠ [] := by
      intro h
      exact hq (List.map_eq_nil.mp h)
    have hlen : ((pyLower query).length : ℚ) ≠ 0 :=
      Nat.cast_ne_zero.mpr (fun h => hql (List.length_eq_zero.mp h))
    have hscore_s : song_score (pyLower query) s = 3/2 := by
      unfold song_score
      rw [hs, isSubstring_self]
      simp only [if_true]
      rw [div_self hlen]
      norm_num
    have hscore_t : song_score (pyLower query) t ≤ 1 := by
      unfold song_score
      rw [hfuzzy]
      simp only [Bool.false_eq_true, if_false]
      exact fuzzyScore_le_one _ _
    rw [hscore_s]
    calc song_score (pyLower query) t ≤ 1 := hscore_t
      _ < 3/2 := by norm_num
  · intro hq hall
    cases files with
    | nil => rfl
    | cons f rest =>
      show (if query = [] then some f
        else
          if (List.foldl (bestStep (pyLower query)) (none, 0) (f :: rest)).2 > 3/10
          then (List.foldl (bestStep (pyLower query)) (none, 0) (f :: rest)).1
          else none) = none
      rw [if_neg hq, if_neg]
      rw [not_lt]
      apply foldl_preserve (fun best : Option Song × ℚ => best.2 ≤ 3/10)
      · norm_num
      · intro best s hs hbest
        unfold bestStep
        split_ifs with h
        · exact hall s hs
        · exact hbest

/-- Witness for C4 at concrete songs: query `"jazz"`, an exact-match
song `"Jazz"` and a fuzzy-only song `"rock"`; and a query `"xyz"` whose
only score (against `"abcdef"`) is below the threshold. -/
theorem find_best_match_exact_and_threshold_witness :
    song_score (pyLower "jazz".data) ⟨"rock".data, [], []⟩
        < song_score (pyLower "jazz".data) ⟨"Jazz".data, [], []⟩
    ∧ find_best_match "xyz".data [⟨"abcdef".data, [], []⟩] = none := by
  constructor
  · exact (find_best_match_exact_and_threshold "jazz".data []).1
      ⟨"Jazz".data, [], []⟩ ⟨"rock".data, [], []⟩ (by decide) (by decide)
      (by decide)
  · refine (find_best_match_exact_and_threshold "xyz".data
      [⟨"abcdef".data, [], []⟩]).2 (by decide) ?_
    intro s hs
    rw [List.mem_singleton] at hs
    subst hs
    have hsub : isSubstring (pyLower "xyz".data)
        (pyLower (Song.mk "abcdef".data [] []).name) = false := by decide
    have h1 : (pyLower "xyz".data).length = 3 := by decide
    have h2 : (pyLower (Song.mk "abcdef".data [] []).name).length = 6 := by decide
    have h3 : matchesCount (pyLower "xyz".data)
        (pyLower (Song.mk "abcdef".data [] []).name) = 0 := by decide
    rw [song_score, if_neg (by rw [hsub]; exact Bool.false_ne_true),
      fuzzyScore, if_neg (by rw [h1, h2]; omega), h1, h2, h3]
    norm_num

/-- C10: every exact case-insensitive substring match is unconditionally
accepted — for every non-empty query and song list, if the lowercased
query occurs inside some listed song's lowercased name, `find_best_match`
returns some song (never "no match"), since a substring score strictly
exceeds 0.5 and hence the 0.3 threshold. -/
theorem find_best_match_substring_accepted (query : List Char)
    (files : List Song) (s : Song) (hq : query ≠ []) (hs : s ∈ files)
    (hsub : isSubstring (pyLower query) (pyLower s.name) = true) :
    (find_best_match query files).isSome = true := by
  cases files with
  | nil => exact absurd hs (List.not_mem_nil s)
  | cons f rest =>
    show (if query = [] then some f
      else
        if (List.foldl (bestStep (pyLower query)) (none, 0) (f :: rest)).2 > 3/10
        then (List.foldl (bestStep (pyLower query)) (none, 0) (f :: rest)).1
        else none).isSome = true
    rw [if_neg hq]
    have hql : (0 : ℚ) < (pyLower query).length := by
      have : query ≠ [] → (pyLower query).length ≠ 0 := by
        intro h h0
        exact h (List.length_eq_zero.mp (by simpa [pyLower] using h0))
      exact_mod_cast Nat.pos_of_ne_zero (this hq)
    have hnl : (0 : ℚ) < ((pyLower s.name).length : ℚ) := by
      have h1 : (pyLower query).length ≤ (pyLower s.name).length :=
        isSubstring_length hsub
      have : 0 < (pyLower s.name).length := by
        have h2 : 0 < (pyLower query).length := by exact_mod_cast hql
        omega
      exact_mod_cast this
    have hscore : (1 : ℚ)/2 < song_score (pyLower query) s := by
      unfold song_score
      rw [hsub]
      simp only [if_true]
      have : (0 : ℚ) < ((pyLower query).length : ℚ) / ((pyLower s.name).length : ℚ) :=
        div_pos hql hnl
      linarith
    have hge := foldl_bestStep_ge (pyLower query) (f :: rest) (none, 0) s hs
    rw [if_pos (by linarith)]
    exact foldl_bestStep_isSome (pyLower query) (f :: rest) (by linarith)

/-- Witness for C10: query `"ell"` occurs inside the song name
`"HELLO"`. -/
theorem find_best_match_substring_accepted_witness :
    (find_best_match "ell".data [⟨"HELLO".data, [], []⟩]).isSome = true :=
  find_best_match_substring_accepted "ell".data [⟨"HELLO".data, [], []⟩]
    ⟨"HELLO".data, [], []⟩ (by decide) (by decide) (by decide)

end DeskBot
